import Mathlib

/-!
Shallow embedding of the Stanford alumni-directory crawler
(src/index.js main crawler class, src/stealth-crawler.js override,
src/clean-csv.js) and proofs about its dedup / incremental-write /
extraction / pagination / search-strategy behaviour.

Modelling conventions:
* JavaScript strings are `String` / `List Char` (the sources only ever
  handle ASCII-range text, where UTF-16 length and char count agree).
* Browser effects (Playwright calls, `page.evaluate` callbacks whose
  values no claim constrains) are oracle inputs; a step that can throw
  is an `Except Unit` value.  Callbacks whose pure string logic claims
  do constrain (the prominent-degree regex, the career-support
  indicator scan, the email domain bucketing, the CSV name parse) are
  translated in full from the source.
* The CSV sink produced by the external csv-writer package is modelled
  from the spec (an append-growing delimited file, first write adds the
  header, each record one delimited row, fields quoted RFC-4180 style
  when they contain a delimiter, quote or line break).
-/

namespace Webcrawl

/-- ASCII apostrophe and double quote, used instead of escape sequences. -/
def apos : Char := Char.ofNat 39

/-- ASCII double quote character. -/
def qchar : Char := Char.ofNat 34

abbrev Chars := List Char

/-- Whitespace test used to model JavaScript trim and regex \s. -/
def wsp (c : Char) : Bool := c.isWhitespace

/-- Model of JavaScript String.prototype.trim on a char list. -/
def trimChars (l : Chars) : Chars :=
  ((l.dropWhile wsp).reverse.dropWhile wsp).reverse

/-- Model of JavaScript String.prototype.trim. -/
def jsTrim (s : String) : String := (trimChars s.toList).asString

/-- Does pattern occur as a contiguous sublist? (JS includes on char lists.) -/
def inclChars (pat : Chars) : Chars → Bool
  | [] => pat.isPrefixOf []
  | c :: cs => pat.isPrefixOf (c :: cs) || inclChars pat cs

/-- Model of JavaScript s.includes(pat). -/
def jsIncludes (s pat : String) : Bool := inclChars pat.toList s.toList

/-- Split a char list at every occurrence of the separator character
(model of JavaScript String.prototype.split with a one-char separator). -/
def splitCh (c : Char) : Chars → List Chars
  | [] => [[]]
  | x :: xs =>
    match splitCh c xs with
    | [] => if x = c then [[], []] else [[x]]
    | h :: t => if x = c then [] :: h :: t else (x :: h) :: t

/-- Index of the first occurrence of a character (JS indexOf, as Option). -/
def idxOfCh (c : Char) : Chars → Option Nat
  | [] => none
  | x :: xs => if x = c then some 0 else (idxOfCh c xs).map (· + 1)

theorem splitCh_ne_nil (c : Char) (l : Chars) : splitCh c l ≠ [] := by
  cases l with
  | nil => simp [splitCh]
  | cons x xs =>
    simp only [splitCh]
    match h : splitCh c xs with
    | [] => by_cases hx : x = c <;> simp [hx]
    | h' :: t => by_cases hx : x = c <;> simp [hx]

theorem splitCh_append (c : Char) (xs ys : Chars) :
    splitCh c (xs ++ c :: ys) = splitCh c xs ++ splitCh c ys := by
  induction xs with
  | nil =>
    simp only [List.nil_append, splitCh]
    match h : splitCh c ys with
    | [] => exact absurd h (splitCh_ne_nil c ys)
    | h' :: t => simp
  | cons x xs ih =>
    have hne := splitCh_ne_nil c xs
    match h : splitCh c xs with
    | [] => exact absurd h hne
    | h' :: t =>
      have hkey : splitCh c (xs ++ c :: ys) = h' :: (t ++ splitCh c ys) := by
        rw [ih, h]; rfl
      simp only [List.cons_append, splitCh, hkey, h]
      by_cases hx : x = c <;> simp [hx, hkey]

theorem splitCh_of_not_mem (c : Char) (l : Chars) (h : c ∉ l) :
    splitCh c l = [l] := by
  induction l with
  | nil => rfl
  | cons x xs ih =>
    simp only [List.mem_cons, not_or] at h
    have hx : ¬x = c := fun he => h.1 he.symm
    simp only [splitCh, ih h.2]
    simp [hx]

theorem idxOfCh_append_cons (c : Char) (xs ys : Chars) (h : c ∉ xs) :
    idxOfCh c (xs ++ c :: ys) = some xs.length := by
  induction xs with
  | nil => simp [idxOfCh]
  | cons x xs ih =>
    simp only [List.mem_cons, not_or] at h
    have hx : ¬x = c := fun he => h.1 he.symm
    simp [idxOfCh, hx, ih h.2]

theorem dropWhile_append_of_ne_nil (p : Char → Bool) (xs ys : Chars)
    (h : xs.dropWhile p ≠ []) :
    (xs ++ ys).dropWhile p = xs.dropWhile p ++ ys := by
  induction xs with
  | nil => simp [List.dropWhile] at h
  | cons x xs ih =>
    cases hpx : p x with
    | true =>
      simp only [List.cons_append, List.dropWhile, hpx] at h ⊢
      exact ih h
    | false => simp [List.cons_append, List.dropWhile, hpx]

theorem dropWhile_append_of_nil (p : Char → Bool) (xs ys : Chars)
    (h : xs.dropWhile p = []) :
    (xs ++ ys).dropWhile p = ys.dropWhile p := by
  induction xs with
  | nil => simp
  | cons x xs ih =>
    cases hpx : p x with
    | true =>
      simp only [List.cons_append, List.dropWhile, hpx] at h ⊢
      exact ih h
    | false => simp [List.dropWhile, hpx] at h

theorem asString_toList (s : String) : s.toList.asString = s := rfl

/-! ### Data model: the alumni record (src/index.js, extractAlumniFromElement
return value and the CSV header of saveIncrementalCSV). -/

/-- One extracted alumni record; all fields are strings, exactly the thirteen
columns of the CSV header in saveIncrementalCSV (src/index.js:1262-1276). -/
structure AlumniRecord where
  name : String
  classYear : String
  degree : String
  location : String
  company : String
  stanfordEmail : String
  personalEmail : String
  urls : String
  phone : String
  skills : String
  careerSupport : String
  professionalContact : String
  extractedAt : String
deriving DecidableEq, Repr

/-- The record fields in CSV column order. -/
def fieldsOf (r : AlumniRecord) : List String :=
  [r.name, r.classYear, r.degree, r.location, r.company, r.stanfordEmail,
   r.personalEmail, r.urls, r.phone, r.skills, r.careerSupport,
   r.professionalContact, r.extractedAt]

/-! ### CSV sink.  Modelled from the spec: the csv-writer npm package is
external to the repository; the spec describes the sink as an append-growing
delimited text file with a fixed column header where the first write creates
the file with the header and subsequent writes append data rows only.  A field
is quoted (RFC-4180 style, quotes doubled) when it contains a delimiter, a
quote or a line break; every written record ends with a newline. -/

/-- Double every quote character in a field (CSV escaping). -/
def escQ : Chars → Chars
  | [] => []
  | x :: xs => if x = qchar then qchar :: qchar :: escQ xs else x :: escQ xs

/-- Does a CSV field need quoting? -/
def needsQuote (f : Chars) : Bool :=
  f.contains ',' || f.contains qchar || f.contains '\n' || f.contains '\r'

/-- Serialize one CSV field. -/
def csvField (f : Chars) : Chars :=
  if needsQuote f then qchar :: escQ f ++ [qchar] else f

/-- Join serialized fields with the comma delimiter. -/
def joinFields : List Chars → Chars
  | [] => []
  | [f] => f
  | f :: fs => f ++ ',' :: joinFields fs

/-- Serialize one record as one CSV row (without the record delimiter). -/
def rowOf (r : AlumniRecord) : Chars :=
  joinFields ((fieldsOf r).map (fun f => csvField f.toList))

/-- The fixed CSV header row written on file creation
(titles of saveIncrementalCSV, src/index.js:1262-1276). -/
def headerRow : Chars :=
  ("Name,Class Year,Degree,Location,Company,Stanford Email,Personal Email," ++
   "URLs,Phone,Skills,Career Support,Professional Contact,Extracted At").toList

/-- Model of saveIncrementalCSV (src/index.js:1249-1282): if the file does not
exist the write creates it with the header followed by the one record row;
if it exists (append flag set) the one record row is appended. -/
def saveIncr : Option Chars → AlumniRecord → Chars
  | none, r => headerRow ++ '\n' :: (rowOf r ++ ['\n'])
  | some c, r => c ++ (rowOf r ++ ['\n'])

/-- The concatenated data rows of a list of written records. -/
def rowsOf : List AlumniRecord → Chars
  | [] => []
  | r :: rs => rowOf r ++ '\n' :: rowsOf rs

/-- File content after the given records have been written (header + rows). -/
def contentOf (ws : List AlumniRecord) : Chars :=
  headerRow ++ '\n' :: rowsOf ws

/-- File state after the given records have been written: absent while no
record has ever been saved, else header plus one row per record. -/
def buildFile (ws : List AlumniRecord) : Option Chars :=
  if ws.isEmpty then none else some (contentOf ws)

/-! ### getExistingNames (src/index.js:1284-1319): parse the names back out
of the CSV file.  Lines are split on the newline character, the header line
is skipped, each non-blank trimmed line contributes the text before its first
comma (surrounding quotes stripped) provided that comma is at index > 0. -/

/-- Strip one leading and trailing quote when both are present
(src/index.js:1305-1307, JavaScript slice(1, -1)). -/
def stripQuotes (l : Chars) : Chars :=
  if l.head? = some qchar ∧ l.getLast? = some qchar then
    (l.drop 1).dropLast
  else l

/-- Parse the name out of one CSV line (src/index.js:1297-1310); none when
the line is blank or its first comma is missing or at index 0. -/
def parseLine (l : Chars) : Option String :=
  let t := trimChars l
  if t.isEmpty then none
  else
    match idxOfCh ',' t with
    | some i => if 0 < i then some ((stripQuotes (t.take i)).asString) else none
    | none => none

/-- All names recovered from a CSV content (header line skipped).
getExistingNames returns a JavaScript Set; only membership is ever used, so
the model keeps the parsed names as a list. -/
def parseNames (content : Chars) : List String :=
  ((splitCh '\n' content).drop 1).filterMap parseLine

/-- Seed of existing names for a crawl call: empty when the file is absent
(fs.existsSync false, src/index.js:1287-1289), else the parsed names. -/
def parseNamesOpt : Option Chars → List String
  | none => []
  | some c => parseNames c

/-- Model of getExistingNames at its full interface (src/index.js:1284-1319):
first argument is the fs.existsSync result, second the outcome of reading the
file (readFileSync may throw; the catch logs a warning and returns an empty
set). -/
def getExistingNamesFS : Bool → Except Unit Chars → List String
  | false, _ => []
  | true, .error _ => []
  | true, .ok content => parseNames content

/-! ### Name validity filter (src/index.js:1581-1588): reject site-chrome
strings and over-long names. -/

/-- The denylisted site-chrome substrings checked by the filter, in source
order (the length ceiling sits between the fourth and fifth check). -/
def denylist : List String :=
  ["Stanford", "University", "Alumni Directory", "(link is external)",
   "Maps & Directions", "Terms of Use"]

/-- The isValidAlumni check of crawlSearchResults (src/index.js:1582-1588). -/
def isValidAlumni (n : String) : Bool :=
  !jsIncludes n "Stanford" &&
  !jsIncludes n "University" &&
  !jsIncludes n "Alumni Directory" &&
  !jsIncludes n "(link is external)" &&
  decide (n.length < 200) &&
  !jsIncludes n "Maps & Directions" &&
  !jsIncludes n "Terms of Use"

/-! ### Email bucketing (src/index.js:1188-1208). -/

/-- Case-insensitive suffix test on strings. -/
def icSuffix (pat e : String) : Bool :=
  (pat.toList.map Char.toLower).isSuffixOf (e.toList.map Char.toLower)

/-- The test e.match(/@(alumni\.|gsb\.|alumni-gsb\.)?stanford\.edu$/i)
(src/index.js:1188).  The pattern is end-anchored and starts at a literal
@ sign, so it matches exactly when the address ends (case-insensitively)
with one of the four @-domain suffixes. -/
def isStanfordEmail (e : String) : Bool :=
  icSuffix "@stanford.edu" e ||
  icSuffix "@alumni.stanford.edu" e ||
  icSuffix "@gsb.stanford.edu" e ||
  icSuffix "@alumni-gsb.stanford.edu" e

/-- JavaScript Array.prototype.join(", "). -/
def joinCommaSp : List String → String
  | [] => ""
  | [s] => s
  | s :: ss => s ++ ", " ++ joinCommaSp ss

/-- JavaScript x || "N/A": the empty string is falsy. -/
def orNA (s : String) : String := if s = "" then "N/A" else s

/-- The stanfordEmail field of the record (src/index.js:1188, 1200). -/
def stanfordEmailField (emails : List String) : String :=
  orNA (joinCommaSp (emails.filter isStanfordEmail))

/-- The personalEmail field of the record (src/index.js:1189, 1201). -/
def personalEmailField (emails : List String) : String :=
  orNA (joinCommaSp (emails.filter (fun e => !isStanfordEmail e)))

/-- JavaScript [...new Set(xs)]: deduplicate keeping first occurrences. -/
def dedupFirstAux (seen : List String) : List String → List String
  | [] => []
  | x :: xs =>
    if seen.contains x then dedupFirstAux seen xs
    else x :: dedupFirstAux (x :: seen) xs

/-- Deduplicate a list keeping first occurrences (src/index.js:981-983). -/
def dedupFirst (l : List String) : List String := dedupFirstAux [] l

/-! ### Degree extraction (src/index.js:396-485): the page.evaluate callback
computing the degree from document.body.textContent, translated in full.
Method 1 matches the prominent-degree pattern
\b(MBA|MS|PhD|BA|BS|JD|MD|MA|MEd|MFA|MPH|MSW|MPA|LLM|ScD|EdD)\s*[THE-APOSTROPHES]?\d\x7b2\x7d\b
case-insensitively against the first 500 characters (both characters in the
bracket class of the source are the ASCII apostrophe); methods 2-4 are the
fallbacks. -/

/-- JavaScript regex word character \w = [A-Za-z0-9_]. -/
def isWordChar (c : Char) : Bool := c.isAlpha || c.isDigit || c = '_'

/-- Case-insensitive literal prefix match (ASCII folding, as the /i flag). -/
def icStarts : Chars → Chars → Bool
  | [], _ => true
  | _ :: _, [] => false
  | p :: ps, c :: cs => (p.toLower = c.toLower) && icStarts ps cs

/-- Word boundary at the end of a match: end of input or a non-word char. -/
def endBoundary : Chars → Bool
  | [] => true
  | c :: _ => !isWordChar c

/-- The alternation of the prominent-degree pattern, in source order. -/
def degreeAlts : List Chars :=
  ["MBA", "MS", "PhD", "BA", "BS", "JD", "MD", "MA", "MEd", "MFA", "MPH",
   "MSW", "MPA", "LLM", "ScD", "EdD"].map String.toList

/-- Match the tail \s*[apos]?\d\x7b2\x7d\b of the prominent-degree pattern;
returns the number of characters consumed.  The components never overlap
(whitespace, apostrophe and digits are disjoint), so greedy matching is
exact. -/
def matchDegreeTail (l : Chars) : Option Nat :=
  let w := (l.takeWhile wsp).length
  let l1 := l.drop w
  match l1 with
  | c :: rest =>
    if c = apos then
      match rest with
      | d1 :: d2 :: rest2 =>
        if d1.isDigit && d2.isDigit && endBoundary rest2 then some (w + 3)
        else none
      | _ => none
    else
      match l1 with
      | d1 :: d2 :: rest2 =>
        if d1.isDigit && d2.isDigit && endBoundary rest2 then some (w + 2)
        else none
      | _ => none
  | [] => none

/-- Try the alternatives in source order at the current position
(regex alternation with backtracking into the tail). -/
def tryDegreeAlts (l : Chars) : List Chars → Option Nat
  | [] => none
  | a :: more =>
    if icStarts a l then
      match matchDegreeTail (l.drop a.length) with
      | some t => some (a.length + t)
      | none => tryDegreeAlts l more
    else tryDegreeAlts l more

/-- Match the whole prominent-degree pattern at the current position;
prevWord says whether the preceding character is a word character (the
leading word boundary, since every alternative starts with a letter). -/
def matchProminentAt (prevWord : Bool) (l : Chars) : Option Nat :=
  if prevWord then none else tryDegreeAlts l degreeAlts

/-- Leftmost match of the prominent-degree pattern (JS String.match without
the global flag: first match, returned as the matched text). -/
def findProminent (prevWord : Bool) : Chars → Option Chars
  | [] => none
  | c :: rest =>
    match matchProminentAt prevWord (c :: rest) with
    | some len => some ((c :: rest).take len)
    | none => findProminent (isWordChar c) rest

/-- First prominent-degree match in a text (position 0 starts at a
word boundary). -/
def prominentDegreeMatch (text : Chars) : Option Chars := findProminent false text

/-- Method 1 (src/index.js:400-405): the prominent pattern against only the
first 500 characters, result trimmed. -/
def degreeMethod1 (fullText : Chars) : Option String :=
  (prominentDegreeMatch (fullText.take 500)).map (fun m => (trimChars m).asString)

/-- First index at which a literal (case-sensitive) pattern occurs. -/
def idxOfSub (pat : Chars) : Chars → Option Nat
  | [] => if pat.isPrefixOf ([] : Chars) then some 0 else none
  | c :: cs =>
    if pat.isPrefixOf (c :: cs) then some 0
    else (idxOfSub pat cs).map (· + 1)

/-- First position satisfying a suffix predicate. -/
def findIdxP (p : Chars → Bool) : Chars → Option Nat
  | [] => if p [] then some 0 else none
  | c :: rest =>
    if p (c :: rest) then some 0 else (findIdxP p rest).map (· + 1)

/-- Section headers ending the Degrees block (src/index.js:414). -/
def sectionAlts : List Chars :=
  ["More about me", "Skills & specialties", "Stanford information",
   "Contact information", "Professional experience",
   "Personal information"].map String.toList

/-- Does /\n\s*(section alternatives)/i match at this position? -/
def sectionAt (l : Chars) : Bool :=
  match l with
  | c :: rest =>
    c = '\n' && sectionAlts.any (fun a => icStarts a (rest.dropWhile wsp))
  | [] => false

/-- Is a line exactly four digits (/^\d\x7b4\x7d$/)? -/
def isYearLine (l : Chars) : Bool := decide (l.length = 4) && l.all (·.isDigit)

/-- Degree tokens recognised inside the Degrees section (src/index.js:431). -/
def method2Alts : List Chars :=
  ["BS", "BA", "MS", "MA", "MBA", "PhD", "JD", "MD", "MEd", "MFA", "MPH",
   "MSW", "MPA", "LLM", "ScD", "EdD", "Bachelor", "Master",
   "Doctor"].map String.toList

/-- Does the line contain one of the word alternatives between word
boundaries (case-insensitive)?  Order is irrelevant for a plain hit test. -/
def wordAltHit (alts : List Chars) (prevWord : Bool) : Chars → Bool
  | [] => false
  | c :: rest =>
    (!prevWord &&
      alts.any (fun a =>
        icStarts a (c :: rest) && endBoundary ((c :: rest).drop a.length))) ||
    wordAltHit alts (isWordChar c) rest

/-- Does /School\s*$/ match at this position (case-sensitive)? -/
def schoolAt (l : Chars) : Bool :=
  ("School".toList).isPrefixOf l && (l.drop 6).all wsp

/-- Remove a trailing School (replace(/School\s*$/, ...), leftmost match). -/
def chopTrailingSchool (l : Chars) : Chars :=
  match findIdxP schoolAt l with
  | some i => l.take i
  | none => l

/-- Remove everything from the first occurrence of a literal onwards
(replace(/Literal.*$/, ...) on a single line). -/
def chopFrom (pat : Chars) (l : Chars) : Chars :=
  match idxOfSub pat l with
  | some i => l.take i
  | none => l

/-- Clean-up applied to a degree line (src/index.js:433-437). -/
def cleanupDegreeLine (l : Chars) : Chars :=
  trimChars (chopFrom ("Sciences".toList)
    (chopFrom ("Humanities".toList) (chopTrailingSchool l)))

/-- The year/degree accumulation loop over the Degrees-section lines
(src/index.js:422-447); the first argument is currentYear. -/
def degreesLoop (year : Chars) : List Chars → List Chars
  | [] => []
  | line :: rest =>
    if isYearLine line then degreesLoop line rest
    else if wordAltHit method2Alts false line then
      let cd := cleanupDegreeLine line
      if 2 < cd.length then
        (if year.isEmpty then cd
         else cd ++ ' ' :: apos :: year.drop (year.length - 2)) ::
          degreesLoop year rest
      else degreesLoop year rest
    else degreesLoop year rest

/-- Method 2 (src/index.js:407-452): parse the Degrees section. -/
def degreeMethod2 (fullText : Chars) : Option String :=
  match idxOfSub ("Degrees".toList) fullText with
  | none => none
  | some i =>
    let afterD := fullText.drop (i + 7)
    let degreesText :=
      match findIdxP sectionAt afterD with
      | some j => afterD.take j
      | none => afterD.take 800
    let lines := ((splitCh '\n' degreesText).map trimChars).filter
      (fun l => !l.isEmpty)
    let info := degreesLoop [] lines
    if info.isEmpty then none
    else some (joinCommaSp (info.map List.asString))

/-- The char class [A-Za-z\s,()&-] of the method-3 patterns. -/
def clsA (c : Char) : Bool :=
  c.isAlpha || wsp c || c = ',' || c = '(' || c = ')' || c = '&' || c = '-'

/-- Match /(Bachelor|Master|Doctor)\s+of\s+[cls]+/i at this position;
returns the match length.  Whitespace is inside the class, so the greedy
match always ends at the end of the class run. -/
def matchFullDegreeA (l : Chars) : Option Nat :=
  (["Bachelor", "Master", "Doctor"].map String.toList).firstM (fun a =>
    if icStarts a l then
      let l1 := l.drop a.length
      let w1 := (l1.takeWhile wsp).length
      let l2 := l1.drop w1
      if 0 < w1 && icStarts ("of".toList) l2 then
        let l3 := l2.drop 2
        let L := (l3.takeWhile clsA).length
        let startsWs := match l3 with
          | c :: _ => wsp c
          | [] => false
        if startsWs && 2 ≤ L then some (a.length + w1 + 2 + L) else none
      else none
    else none)

/-- Match /\b(MBA|...|EdD)\s*-?\s*[cls]+/i at this position (prevWord is the
leading word boundary); whitespace and the hyphen are inside the class, so
the match succeeds exactly when the class run after the alternative is
non-empty and ends with that run. -/
def matchSimpleDegB (prevWord : Bool) (l : Chars) : Option Nat :=
  if prevWord then none
  else
    degreeAlts.firstM (fun a =>
      if icStarts a l then
        let L := ((l.drop a.length).takeWhile clsA).length
        if 0 < L then some (a.length + L) else none
      else none)

/-- Global scan for pattern A (fuel-driven; the fuel, set to the text length,
always suffices because every match consumes at least one character). -/
def scanA (fuel : Nat) (l : Chars) : List Chars :=
  match fuel with
  | 0 => []
  | fuel' + 1 =>
    match l with
    | [] => []
    | c :: rest =>
      match matchFullDegreeA (c :: rest) with
      | some len => (c :: rest).take len :: scanA fuel' ((c :: rest).drop len)
      | none => scanA fuel' rest

/-- Global scan for pattern B, tracking the word boundary. -/
def scanB (fuel : Nat) (prevWord : Bool) (l : Chars) : List Chars :=
  match fuel with
  | 0 => []
  | fuel' + 1 =>
    match l with
    | [] => []
    | c :: rest =>
      match matchSimpleDegB prevWord (c :: rest) with
      | some len =>
        let m := (c :: rest).take len
        m :: scanB fuel' ((m.getLast?.map isWordChar).getD false)
          ((c :: rest).drop len)
      | none => scanB fuel' (isWordChar c) rest

/-- The reasonable-match filter of method 3 (src/index.js:463-468). -/
def pickReasonable (ms : List Chars) : Option Chars :=
  ms.find? (fun m =>
    decide (m.length < 100) && !inclChars ("Stanford".toList) m &&
    !inclChars ("Alumni".toList) m && !inclChars ("Directory".toList) m)

/-- Method 3 (src/index.js:454-470): full degree names anywhere in the text. -/
def degreeMethod3 (fullText : Chars) : Option String :=
  match pickReasonable (scanA fullText.length fullText) with
  | some m => some ((trimChars m).asString)
  | none =>
    match pickReasonable (scanB fullText.length false fullText) with
    | some m => some ((trimChars m).asString)
    | none => none

/-- Method 4 (src/index.js:472-482): the simple prominent pattern over the
whole text; the first match is returned trimmed. -/
def degreeMethod4 (fullText : Chars) : Option String :=
  (prominentDegreeMatch fullText).map (fun m => (trimChars m).asString)

/-- The whole degree page.evaluate callback (src/index.js:397-485): method 1
first, then the fallbacks, finally the N/A sentinel. -/
def extractDegreeEval (fullText : String) : String :=
  let cs := fullText.toList
  match degreeMethod1 cs with
  | some d => d
  | none =>
    match degreeMethod2 cs with
    | some d => d
    | none =>
      match degreeMethod3 cs with
      | some d => d
      | none =>
        match degreeMethod4 cs with
        | some d => d
        | none => "N/A"

/-! ### Career support / professional contact indicator scans
(src/index.js:1013-1035 and 1053-1080): pure substring checks over the page
body text. -/

/-- Career-support indicator phrases (src/index.js:1017-1026). -/
def careerIndicators : List String :=
  ["Willing to offer career support", "Provide career advice",
   "Career mentoring", "Career guidance", "Willing to mentor",
   "Open to mentoring", "Career coaching", "Professional mentoring"]

/-- The career-support page.evaluate callback body. -/
def hasCareerSupportIn (t : String) : Bool :=
  careerIndicators.any (fun p => jsIncludes t p)

/-- Professional-contact indicator phrases (src/index.js:1057-1075). -/
def profContactIndicators : List String :=
  ["Professional contact information", "Professional contact",
   "Business contact", "Work contact", "Office contact",
   "(Preferred phone)", "Work phone", "Office phone", "Business phone"]

/-- The professional-contact page.evaluate callback body. -/
def hasProfContactIn (t : String) : Bool :=
  profContactIndicators.any (fun p => jsIncludes t p)

/-! ### extractAlumniFromElement (src/index.js:288-1214).

Oracle inputs stand for the results of the Playwright calls:
* nameCandidates: the textContent of each name selector that produced an
  element (none = no element or the attempt threw; every attempt sits in
  its own try/catch, src/index.js:301-315);
* cardText: element.textContent() in the name fallback (src/index.js:318-331);
* profileLinkFound: whether any link with a profile href was found by either
  link search (src/index.js:336-384);
* clickNav: profileLink.click(), which is not wrapped in an inner
  try/catch, so a throw reaches the outer catch and yields null
  (src/index.js:391, 1210-1213);
* pageText: document.body.textContent on the profile page;
* navBack: the final page.goto back to the directory (src/index.js:1185),
  also unprotected, so a throw yields null.

The email/URL/phone block (src/index.js:600-1006) accumulates into lists;
every sub-step sits in its own try/catch except the full-page email fallback
page.evaluate (src/index.js:929), which runs only while the email list is
still empty; a throw there reaches the catch at src/index.js:1004, which
logs and falls through with the lists as they are (skipping the Set-based
dedup of src/index.js:981-983). -/

structure ContactEffects where
  emailSelAcc : List String
  fallbackEval : Except Unit (List String)
  buttonAcc : List String
  urlsAcc : List String
  phonesAcc : List String
deriving Repr

/-- Net (emails, urls, phones) after the contact block, modelling the
fallback cascade and the dedup step (or its being skipped on a throw). -/
def contactResult (c : ContactEffects) : List String × List String × List String :=
  if c.emailSelAcc.isEmpty then
    match c.fallbackEval with
    | .error _ => ([], c.urlsAcc, c.phonesAcc)
    | .ok ms =>
      let e1 := ms.filter (fun e =>
        !jsIncludes e "example.com" && !jsIncludes e "domain.com")
      let e2 := if e1.isEmpty then c.buttonAcc else e1
      (dedupFirst e2, dedupFirst c.urlsAcc, dedupFirst c.phonesAcc)
  else (dedupFirst c.emailSelAcc, dedupFirst c.urlsAcc, dedupFirst c.phonesAcc)

structure ExtractEffects where
  nameCandidates : List (Option String)
  cardText : Except Unit String
  profileLinkFound : Bool
  clickNav : Except Unit Unit
  pageText : String
  degreeEvalThrew : Bool
  locationEval : Except Unit String
  companyEval : Except Unit String
  contact : ContactEffects
  careerEvalThrew : Bool
  profEvalThrew : Bool
  skillsBlock : Except Unit (List String)
  navBack : Except Unit Unit
  extractedAt : String
deriving Repr

/-- The name-selector loop (src/index.js:301-315): first candidate whose
trimmed text is non-empty. -/
def nameFromCandidates (cands : List (Option String)) : Option String :=
  (cands.filterMap (fun o => o.bind (fun t =>
    let t' := jsTrim t
    if t' = "" then none else some t'))).head?

/-- The name fallback (src/index.js:318-331): first line of the element text
with a non-empty trim. -/
def firstNonemptyLine (t : String) : Option String :=
  ((splitCh '\n' t.toList).filterMap (fun l =>
    let l' := trimChars l
    if l'.isEmpty then none else some l'.asString)).head?

/-- The extracted name: selector loop, then text fallback, else the N/A
sentinel (the initial value, src/index.js:291). -/
def extractName (eff : ExtractEffects) : String :=
  match nameFromCandidates eff.nameCandidates with
  | some n => n
  | none =>
    match eff.cardText with
    | .ok t => (firstNonemptyLine t).getD "N/A"
    | .error _ => "N/A"

/-- Model of extractAlumniFromElement: null exactly when no profile link is
found or one of the two unprotected navigations throws; otherwise a record
whose fields fall back to their sentinels on step failures. -/
def extractAlumniFromElement (eff : ExtractEffects) : Option AlumniRecord :=
  if !eff.profileLinkFound then none
  else
    match eff.clickNav with
    | .error _ => none
    | .ok _ =>
      match eff.navBack with
      | .error _ => none
      | .ok _ =>
        let degree :=
          if eff.degreeEvalThrew then "N/A" else extractDegreeEval eff.pageText
        let location :=
          match eff.locationEval with
          | .ok v => v
          | .error _ => "N/A"
        let company :=
          match eff.companyEval with
          | .ok v => v
          | .error _ => "N/A"
        let cr := contactResult eff.contact
        let emails := cr.1
        let urls := cr.2.1
        let phones := cr.2.2
        let careerSupport :=
          if !eff.careerEvalThrew && hasCareerSupportIn eff.pageText then "Yes"
          else "No"
        let professionalContact :=
          if !eff.profEvalThrew && hasProfContactIn eff.pageText then "Yes"
          else "No"
        let skills :=
          match eff.skillsBlock with
          | .ok l => l
          | .error _ => []
        some
          { name := extractName eff
            classYear := "N/A"
            degree := degree
            location := location
            company := company
            stanfordEmail := stanfordEmailField emails
            personalEmail := personalEmailField emails
            urls := orNA (joinCommaSp urls)
            phone := orNA (joinCommaSp phones)
            skills := orNA (joinCommaSp skills)
            careerSupport := careerSupport
            professionalContact := professionalContact
            extractedAt := eff.extractedAt }

/-! ### Pagination: goToNextPage (src/index.js:1659-1721). -/

/-- Per-selector outcome of the next-button loop (each selector attempt sits
in its own try/catch, src/index.js:1675-1694): the selector found nothing or
threw; the button was disabled; the click threw (caught, loop continues); or
the enabled button was clicked (immediate true return). -/
inductive ButtonOutcome
  | missed
  | disabledBtn
  | clickThrew
  | clicked
deriving DecidableEq, Repr

/-- Model of goToNextPage: true on the first successful click of an enabled
button; otherwise true exactly when all three scroll steps succeed and the
new page height strictly exceeds the initial one; any throw outside the
per-selector try/catch hits the outer catch and yields false
(src/index.js:1717-1720). -/
def goToNextPage (btns : List ButtonOutcome) (hInit : Except Unit Nat)
    (hScroll : Except Unit Unit) (hNew : Except Unit Nat) : Bool :=
  if btns.contains .clicked then true
  else
    match hInit, hScroll, hNew with
    | .ok a, .ok _, .ok b => decide (a < b)
    | _, _, _ => false

/-! ### crawlSearchResults (src/index.js:1517-1638): the accept loop over
cards and pages, with incremental persistence and dedup. -/

/-- One iteration of the outer page loop: the extraction outcomes of the
cards processed on that page (none = extractAlumniFromElement returned null),
the pagination effects, and whether the post-pagination waitForSelector
succeeded (a timeout breaks the loop, src/index.js:1625-1630). -/
structure PageRound where
  cards : List (Option AlumniRecord)
  nextBtns : List ButtonOutcome
  hInit : Except Unit Nat
  hScroll : Except Unit Unit
  hNew : Except Unit Nat
  waitOk : Bool
deriving Repr

/-- The goToNextPage result for one round. -/
def nextPageOf (pr : PageRound) : Bool :=
  goToNextPage pr.nextBtns pr.hInit pr.hScroll pr.hNew

/-- State of one crawlSearchResults call, plus the ghost trace of every
record ever handed to saveIncrementalCSV across the whole history. -/
structure CrawlState where
  existing : List String
  results : List AlumniRecord
  file : Option Chars
  written : List AlumniRecord
deriving Repr

/-- Processing of one card (src/index.js:1579-1607): a null extraction is
skipped; an invalid name is filtered out; a name already in the dedup set is
skipped; otherwise the record is accepted, its name added to the set and the
record immediately appended to the CSV sink. -/
def processCard (st : CrawlState) : Option AlumniRecord → CrawlState
  | none => st
  | some r =>
    if isValidAlumni r.name then
      if st.existing.contains r.name then st
      else
        { existing := r.name :: st.existing
          results := st.results ++ [r]
          file := some (saveIncr st.file r)
          written := st.written ++ [r] }
    else st

/-- The inner card loop checks results.length < 1000 before every card
(src/index.js:1571); once the cap is reached the remaining cards are not
processed. -/
def processCardCapped (st : CrawlState) (card : Option AlumniRecord) :
    CrawlState :=
  if st.results.length < 1000 then processCard st card else st

/-- The outer page loop (src/index.js:1559-1631): while results.length is
below 1000, process the cards of the page, then goToNextPage; a false return
ends the loop, as does a waitForSelector timeout. -/
def runRounds : CrawlState → List PageRound → CrawlState
  | st, [] => st
  | st, pr :: rest =>
    if st.results.length < 1000 then
      let st' := pr.cards.foldl processCardCapped st
      if nextPageOf pr then
        if pr.waitOk then runRounds st' rest else st'
      else st'
    else st

/-- One crawlSearchResults call: the dedup seed is loaded from the current
file via getExistingNames (src/index.js:1522), results start empty, then the
page loop runs.  An absent card selector is the empty round list. -/
def crawlCall (file : Option Chars) (written : List AlumniRecord)
    (rounds : List PageRound) : CrawlState :=
  runRounds
    { existing := parseNamesOpt file
      results := []
      file := file
      written := written } rounds

/-- The persistent sink state threaded between crawlSearchResults calls
(later strategies of the same run, or later runs of the process). -/
structure SinkTrace where
  file : Option Chars
  written : List AlumniRecord
deriving Repr

/-- A sequence of crawlSearchResults calls against the same sink: each call
re-seeds its dedup set from the file as left by the previous calls. -/
def crawlCalls : SinkTrace → List (List PageRound) → SinkTrace
  | t, [] => t
  | t, rounds :: rest =>
    let st := crawlCall t.file t.written rounds
    crawlCalls { file := st.file, written := st.written } rest

/-- The initial sink: no output file, nothing ever written. -/
def initSink : SinkTrace := { file := none, written := [] }

/-! ### Search strategies: crawlAlumni (src/index.js:1370-1420) and
performSearch (src/index.js:1460-1515). -/

/-- The global target count (src/index.js:1371). -/
def targetProfiles : Nat := 10000

/-- Strategy-2 buckets: graduation decades (src/index.js:1386). -/
def decadesList : List String :=
  ["1960", "1970", "1980", "1990", "2000", "2010", "2020"]

/-- Strategy-3 buckets: schools (src/index.js:1398). -/
def schoolsList : List String :=
  ["Business", "Engineering", "Medicine", "Law", "Education", "Humanities",
   "Sciences"]

/-- Strategy-4 buckets: common surnames (src/index.js:1410). -/
def surnamesList : List String :=
  ["Smith", "Johnson", "Williams", "Brown", "Jones", "Garcia", "Miller",
   "Davis", "Rodriguez", "Martinez"]

/-- All non-default buckets in their fixed execution order. -/
def bucketTerms : List String := decadesList ++ schoolsList ++ surnamesList

/-- The bucket loops of crawlAlumni: before each bucket the accumulated
total is compared with the target (src/index.js:1388, 1400, 1412); a reached
target skips every remaining bucket.  Each executed search consumes the next
oracle count (the length of the result list its crawlSearchResults call
returned). -/
def strategyBody (total : Nat) : List String → List Nat → List String
  | [], _ => []
  | b :: bs, counts =>
    if targetProfiles ≤ total then []
    else b :: strategyBody (total + counts.headD 0) bs counts.tail

/-- The searches crawlAlumni executes, in order: the default search always
runs first (none), then the buckets until the target is reached
(src/index.js:1376-1420). -/
def crawlAlumniSchedule (counts : List Nat) : List (Option String) :=
  none :: (strategyBody (counts.headD 0) bucketTerms counts.tail).map some

/-- Effect oracle for one performSearch call (src/index.js:1460-1515):
whether the initial page.goto (or the waits) threw, whether any of the
search-box selectors produced an element, and whether interacting with the
box threw. -/
structure SearchEffects where
  gotoThrew : Bool
  boxFound : Bool
  interactThrew : Bool
deriving Repr

/-- Outcome of performSearch; every constructor is a normal return (the whole
body sits in one try/catch, so the function never throws). -/
inductive SearchOutcome
  | searched
  | warnedNoBox
  | caughtError
deriving DecidableEq, Repr

/-- Model of performSearch: a missing search box degrades to a logged
warning and a normal return (src/index.js:1508-1510); any throw is caught
and logged (src/index.js:1512-1514). -/
def performSearch (e : SearchEffects) : SearchOutcome :=
  if e.gotoThrew then .caughtError
  else if e.boxFound then
    if e.interactThrew then .caughtError else .searched
  else .warnedNoBox

/-! ### The stealth override (src/stealth-crawler.js:29-162): same loop with
an additional per-session cap of maxProfilesPerSession = 50 accepted
profiles. -/

/-- The session cap (src/stealth-crawler.js:14). -/
def maxProfilesPerSession : Nat := 50

/-- Stealth crawl state: the extra profilesThisSession counter. -/
structure StealthState where
  existing : List String
  results : List AlumniRecord
  file : Option Chars
  session : Nat
deriving Repr

/-- One card in the stealth loop (src/stealth-crawler.js:84-127): the inner
while also requires profilesThisSession < maxProfilesPerSession, and an
accepted profile increments the session counter. -/
def stealthCard (st : StealthState) (card : Option AlumniRecord) :
    StealthState :=
  if st.results.length < 1000 ∧ st.session < maxProfilesPerSession then
    match card with
    | none => st
    | some r =>
      if isValidAlumni r.name then
        if st.existing.contains r.name then st
        else
          { existing := r.name :: st.existing
            results := st.results ++ [r]
            file := some (saveIncr st.file r)
            session := st.session + 1 }
      else st
  else st

/-- The stealth page loop (src/stealth-crawler.js:72-155): both caps guard
the outer while, and the session cap also breaks mid-loop. -/
def stealthRounds : StealthState → List PageRound → StealthState
  | st, [] => st
  | st, pr :: rest =>
    if st.results.length < 1000 ∧ st.session < maxProfilesPerSession then
      let st' := pr.cards.foldl stealthCard st
      if maxProfilesPerSession ≤ st'.session then st'
      else if nextPageOf pr then
        if pr.waitOk then stealthRounds st' rest else st'
      else st'
    else st

/-- One stealth crawlSearchResults call. -/
def stealthCall (file : Option Chars) (rounds : List PageRound) :
    StealthState :=
  stealthRounds
    { existing := parseNamesOpt file, results := [], file := file,
      session := 0 } rounds

/-! ### CSV round-trip robustness.  getExistingNames recovers a written name
verbatim only when the serialized name field is the unquoted text before the
first comma of an intact line; the conditions below capture exactly that. -/

/-- A name survives the CSV round-trip: non-empty, free of commas, quotes
and line breaks, and without leading or trailing whitespace (the parse trims
each line before splitting at the first comma). -/
def robustName (n : String) : Bool :=
  !n.isEmpty &&
  !n.toList.contains ',' &&
  !n.toList.contains qchar &&
  !n.toList.contains '\n' &&
  !n.toList.contains '\r' &&
  (match n.toList.head? with
   | some c => !wsp c
   | none => false) &&
  (match n.toList.getLast? with
   | some c => !wsp c
   | none => false)

/-- A record survives the CSV round-trip: robust name and no line break in
any field (a field containing a newline is quoted across several physical
lines, which the line-based parse of getExistingNames breaks apart). -/
def robustRecord (r : AlumniRecord) : Bool :=
  robustName r.name &&
  (fieldsOf r).all (fun f => !f.toList.contains '\n' && !f.toList.contains '\r')

/-- All extraction outcomes of a page round are robust records. -/
def roundRobust (pr : PageRound) : Bool :=
  pr.cards.all (fun c => (c.map robustRecord).getD true)

/-- The file always holds exactly the header plus one row per record ever
handed to saveIncrementalCSV (and is absent before the first save). -/
def FileInv (st : CrawlState) : Prop := st.file = buildFile st.written

/-- Invariant of a crawlSearchResults call in flight. -/
def CallInv (st : CrawlState) : Prop :=
  st.file = buildFile st.written ∧
  (∀ r ∈ st.written, robustRecord r = true) ∧
  (st.written.map (·.name)).Nodup ∧
  (∀ n ∈ st.written.map (·.name), n ∈ st.existing)

/-- Invariant of the sink between calls. -/
def SinkInv (t : SinkTrace) : Prop :=
  t.file = buildFile t.written ∧
  (∀ r ∈ t.written, robustRecord r = true) ∧
  (t.written.map (·.name)).Nodup

/-- Per-call invariant for the in-run dedup of the results list. -/
def ResInv (st : CrawlState) : Prop :=
  (st.results.map (·.name)).Nodup ∧
  (∀ n ∈ st.results.map (·.name), n ∈ st.existing)

/-! ### Concrete inputs used by the witnesses and counterexamples. -/

/-- A record with a comma inside the name, as extraction can produce
(every other field the sentinel). -/
def rJane : AlumniRecord :=
  { name := "Doe, Jane", classYear := "N/A", degree := "N/A",
    location := "N/A", company := "N/A", stanfordEmail := "N/A",
    personalEmail := "N/A", urls := "N/A", phone := "N/A", skills := "N/A",
    careerSupport := "No", professionalContact := "No",
    extractedAt := "2024-01-01T00:00:00.000Z" }

/-- A round yielding the comma-named record once, with no pagination. -/
def cexRound : PageRound :=
  { cards := [some rJane], nextBtns := [], hInit := .error (),
    hScroll := .ok (), hNew := .error (), waitOk := false }

/-- A CSV-robust record. -/
def rSafe : AlumniRecord :=
  { name := "Jane Roe", classYear := "N/A", degree := "N/A",
    location := "N/A", company := "N/A", stanfordEmail := "N/A",
    personalEmail := "N/A", urls := "N/A", phone := "N/A", skills := "N/A",
    careerSupport := "No", professionalContact := "No",
    extractedAt := "2024-01-01T00:00:00.000Z" }

/-- A round yielding the robust record once, with no pagination. -/
def safeRound : PageRound :=
  { cards := [some rSafe], nextBtns := [], hInit := .error (),
    hScroll := .ok (), hNew := .error (), waitOk := false }

/-- An empty crawl state. -/
def stEmpty : CrawlState :=
  { existing := [], results := [], file := none, written := [] }

/-- A round whose pagination fails (no buttons, unchanged height). -/
def prNoNext : PageRound :=
  { cards := [], nextBtns := [], hInit := .ok 5, hScroll := .ok (),
    hNew := .ok 5, waitOk := true }

/-- The string MBA apostrophe 24 (built from chars to keep the apostrophe
out of the literals). -/
def mba24 : String := String.mk ['M', 'B', 'A', ' ', apos, '2', '4']

/-- The string BA apostrophe 99. -/
def ba99 : String := String.mk ['B', 'A', ' ', apos, '9', '9']

/-- A profile text whose first 500 characters contain MBA-24 but where an
earlier token also matches the prominent-degree pattern. -/
def degreeCexText : String :=
  String.mk (ba99.toList ++ [' ', 'a', 'n', 'd', ' '] ++ mba24.toList)

/-- A profile text starting with the MBA-24 degree. -/
def degreeOkText : String := String.mk (mba24.toList ++ " graduate".toList)

/-- Extraction effects where every fallible field step fails but the profile
navigation succeeds. -/
def effFieldsFail : ExtractEffects :=
  { nameCandidates := [some "Jane Roe"], cardText := .error (),
    profileLinkFound := true, clickNav := .ok (), pageText := "",
    degreeEvalThrew := true, locationEval := .error (),
    companyEval := .error (),
    contact := { emailSelAcc := [], fallbackEval := .error (),
                 buttonAcc := [], urlsAcc := [], phonesAcc := [] },
    careerEvalThrew := true, profEvalThrew := true,
    skillsBlock := .error (), navBack := .ok (),
    extractedAt := "2024-01-01T00:00:00.000Z" }

/-- The record effFieldsFail extracts: every failed field at its sentinel. -/
def recFieldsFail : AlumniRecord :=
  { name := "Jane Roe", classYear := "N/A", degree := "N/A",
    location := "N/A", company := "N/A", stanfordEmail := "N/A",
    personalEmail := "N/A", urls := "N/A", phone := "N/A", skills := "N/A",
    careerSupport := "No", professionalContact := "No",
    extractedAt := "2024-01-01T00:00:00.000Z" }

/-- Extraction effects where the final navigation back throws. -/
def effNavFail : ExtractEffects :=
  { effFieldsFail with navBack := .error () }

/-- Extraction effects delivering the two claim emails via the selector
loop. -/
def effEmails : ExtractEffects :=
  { effFieldsFail with
    contact := { emailSelAcc := ["alice@stanford.edu", "alice@gmail.com"],
                 fallbackEval := .ok [], buttonAcc := [], urlsAcc := [],
                 phonesAcc := [] } }

/-- The record effEmails extracts. -/
def recEmails : AlumniRecord :=
  { recFieldsFail with
    stanfordEmail := "alice@stanford.edu"
    personalEmail := "alice@gmail.com" }

/-! ## Theorems -/

/-! ### C10: getExistingNames is total at its interface. -/

/-- C10: getExistingNames is total at the public interface — a missing
output file yields an empty set, a throwing read or parse is caught with a
warning and yields an empty set, and a successful read yields the parsed
names; a crawl call against an absent file proceeds with an empty dedup
seed. -/
theorem getExistingNames_total :
    (∀ res, getExistingNamesFS false res = []) ∧
    (∀ e, getExistingNamesFS true (Except.error e) = []) ∧
    (∀ c, getExistingNamesFS true (Except.ok c) = parseNames c) ∧
    (∀ w rounds, crawlCall none w rounds =
      runRounds { existing := [], results := [], file := none, written := w }
        rounds) :=
  ⟨fun _ => rfl, fun _ => rfl, fun _ => rfl, fun _ _ => rfl⟩

/-! ### C5: pagination contract. -/

/-- C5: goToNextPage returns true exactly when an enabled next control is
found and successfully clicked, or, failing that, when every scroll step
succeeds and the page height after the scroll-to-bottom strictly exceeds the
height before; in every other case (no controls and unchanged height, or any
internal error) it returns false, and a false return ends the current
pagination loop of crawlSearchResults without processing further rounds. -/
theorem pagination_contract :
    (∀ btns hInit hScroll hNew,
      goToNextPage btns hInit hScroll hNew = true ↔
        (ButtonOutcome.clicked ∈ btns ∨
          ∃ a b, hInit = Except.ok a ∧ hScroll = Except.ok () ∧
            hNew = Except.ok b ∧ a < b)) ∧
    (∀ st pr rest, nextPageOf pr = false →
      runRounds st (pr :: rest) = runRounds st [pr]) := by
  constructor
  · intro btns h0 hs h1
    unfold goToNextPage
    by_cases hc : btns.contains ButtonOutcome.clicked
    · rw [if_pos hc]
      simp only [true_iff]
      exact Or.inl (by simpa using hc)
    · have hm : ¬ButtonOutcome.clicked ∈ btns := fun hmem => hc (by simpa)
      rw [if_neg hc]
      cases h0 with
      | error e => simp [hm]
      | ok a =>
        cases hs with
        | error e => simp [hm]
        | ok u =>
          cases h1 with
          | error e => simp [hm]
          | ok b => cases u; simp [hm]
  · intro st pr rest h
    simp [runRounds, h]

/-- Witness for C5: a round with no next-page control and an unchanged page
height ends the loop after that round. -/
theorem pagination_contract_witness :
    runRounds stEmpty [prNoNext, prNoNext] = runRounds stEmpty [prNoNext] :=
  pagination_contract.2 stEmpty prNoNext [prNoNext] (by decide)

/-! ### C4: search-strategy contract. -/

/-- Every bucket loop executes a prefix of its bucket list. -/
theorem strategyBody_take (bs : List String) :
    ∀ total counts, ∃ k, strategyBody total bs counts = bs.take k := by
  induction bs with
  | nil => exact fun t c => ⟨0, rfl⟩
  | cons b bs ih =>
    intro t c
    by_cases h : targetProfiles ≤ t
    · exact ⟨0, by simp [strategyBody, h]⟩
    · obtain ⟨k, hk⟩ := ih (t + c.headD 0) c.tail
      refine ⟨k + 1, ?_⟩
      simp only [strategyBody, List.take_succ_cons]
      rw [if_neg h, hk]

/-- C4: crawlAlumni runs the default search first and then the decade,
school and surname buckets in their fixed order (the executed non-default
searches always form a prefix of that bucket list); before each bucket the
loop stops if the accumulated total has reached targetProfiles; and
performSearch degrades to a logged warning and a normal return when no
search box is found. -/
theorem search_strategy_contract :
    (∀ counts, ∃ k, crawlAlumniSchedule counts =
      Option.none :: (bucketTerms.take k).map Option.some) ∧
    (∀ total b bs counts, strategyBody total (b :: bs) counts =
      if targetProfiles ≤ total then []
      else b :: strategyBody (total + counts.headD 0) bs counts.tail) ∧
    bucketTerms = decadesList ++ schoolsList ++ surnamesList ∧
    (∀ e : SearchEffects, e.gotoThrew = false → e.boxFound = false →
      performSearch e = SearchOutcome.warnedNoBox) := by
  refine ⟨?_, ?_, rfl, ?_⟩
  · intro counts
    obtain ⟨k, hk⟩ := strategyBody_take bucketTerms (counts.headD 0)
      counts.tail
    refine ⟨k, ?_⟩
    simp only [crawlAlumniSchedule]
    rw [hk]
  · intro t b bs c; rfl
  · intro e h1 h2; simp [performSearch, h1, h2]

/-- Witness for C4: a concrete performSearch call with no search box warns
and returns normally. -/
theorem search_strategy_contract_witness :
    performSearch
      { gotoThrew := false, boxFound := false, interactThrew := false } =
      SearchOutcome.warnedNoBox :=
  search_strategy_contract.2.2.2 _ rfl rfl

/-! ### C9: hard profile caps. -/

/-- One capped card step keeps the results below the 1000 cap. -/
theorem processCardCapped_le (st : CrawlState) (c : Option AlumniRecord)
    (h : st.results.length ≤ 1000) :
    (processCardCapped st c).results.length ≤ 1000 := by
  unfold processCardCapped
  by_cases hl : st.results.length < 1000
  · simp only [if_pos hl]
    cases c with
    | none => exact h
    | some r =>
      unfold processCard
      by_cases hv : isValidAlumni r.name = true
      · by_cases he : r.name ∈ st.existing
        · simpa [hv, he] using h
        · simp only [hv, if_pos]
          simp [he]
          omega
      · simpa [hv] using h
  · simpa [if_neg hl] using h

/-- The card fold keeps the results below the 1000 cap. -/
theorem foldl_capped_le (cards : List (Option AlumniRecord)) :
    ∀ st : CrawlState, st.results.length ≤ 1000 →
      (cards.foldl processCardCapped st).results.length ≤ 1000 := by
  induction cards with
  | nil => exact fun st h => h
  | cons c cs ih =>
    exact fun st h => ih _ (processCardCapped_le st c h)

/-- The page loop keeps the results below the 1000 cap. -/
theorem runRounds_le (rounds : List PageRound) :
    ∀ st : CrawlState, st.results.length ≤ 1000 →
      (runRounds st rounds).results.length ≤ 1000 := by
  induction rounds with
  | nil => exact fun st h => h
  | cons pr rest ih =>
    intro st h
    unfold runRounds
    by_cases hl : st.results.length < 1000
    · simp only [if_pos hl]
      have h' := foldl_capped_le pr.cards st h
      by_cases hn : nextPageOf pr
      · by_cases hw : pr.waitOk
        · simpa [hn, hw] using ih _ h'
        · simpa [hn, hw] using h'
      · simpa [hn] using h'
    · simpa [if_neg hl] using h

/-- One stealth card step preserves the session invariant. -/
theorem stealthCard_inv (st : StealthState) (c : Option AlumniRecord)
    (h : st.results.length ≤ st.session ∧ st.session ≤ maxProfilesPerSession) :
    (stealthCard st c).results.length ≤ (stealthCard st c).session ∧
      (stealthCard st c).session ≤ maxProfilesPerSession := by
  unfold stealthCard
  by_cases hg : st.results.length < 1000 ∧ st.session < maxProfilesPerSession
  · simp only [if_pos hg]
    cases c with
    | none => exact h
    | some r =>
      obtain ⟨h1, h2⟩ := h
      obtain ⟨hg1, hg2⟩ := hg
      by_cases hv : isValidAlumni r.name = true
      · by_cases he : r.name ∈ st.existing
        · simp [hv, he]
          omega
        · simp [hv, he]
          omega
      · simp [hv]
        omega
  · simpa [if_neg hg] using h

/-- The stealth card fold preserves the session invariant. -/
theorem stealthFold_inv (cards : List (Option AlumniRecord)) :
    ∀ st : StealthState,
      st.results.length ≤ st.session ∧ st.session ≤ maxProfilesPerSession →
      (cards.foldl stealthCard st).results.length ≤
          (cards.foldl stealthCard st).session ∧
        (cards.foldl stealthCard st).session ≤ maxProfilesPerSession := by
  induction cards with
  | nil => exact fun st h => h
  | cons c cs ih => exact fun st h => ih _ (stealthCard_inv st c h)

/-- The stealth page loop preserves the session invariant. -/
theorem stealthRounds_inv (rounds : List PageRound) :
    ∀ st : StealthState,
      st.results.length ≤ st.session ∧ st.session ≤ maxProfilesPerSession →
      (stealthRounds st rounds).results.length ≤
          (stealthRounds st rounds).session ∧
        (stealthRounds st rounds).session ≤ maxProfilesPerSession := by
  induction rounds with
  | nil => exact fun st h => h
  | cons pr rest ih =>
    intro st h
    unfold stealthRounds
    by_cases hg : st.results.length < 1000 ∧ st.session < maxProfilesPerSession
    · simp only [if_pos hg]
      have h' := stealthFold_inv pr.cards st h
      by_cases hs : maxProfilesPerSession ≤ (pr.cards.foldl stealthCard st).session
      · simpa [hs] using h'
      · by_cases hn : nextPageOf pr
        · by_cases hw : pr.waitOk
          · simpa [hs, hn, hw] using ih _ h'
          · simpa [hs, hn, hw] using h'
        · simpa [hs, hn] using h'
    · simpa [if_neg hg] using h

/-! ### Inversion of extractAlumniFromElement. -/

/-- Linking each field of a successfully extracted record to its extraction
step, and each fallible step to its sentinel on failure. -/
theorem extract_some_spec (eff : ExtractEffects) (r : AlumniRecord)
    (h : extractAlumniFromElement eff = some r) :
    r.name = extractName eff ∧
    (eff.degreeEvalThrew = true → r.degree = "N/A") ∧
    (eff.degreeEvalThrew = false → r.degree = extractDegreeEval eff.pageText) ∧
    (eff.locationEval = Except.error () → r.location = "N/A") ∧
    (eff.companyEval = Except.error () → r.company = "N/A") ∧
    r.stanfordEmail = stanfordEmailField (contactResult eff.contact).1 ∧
    r.personalEmail = personalEmailField (contactResult eff.contact).1 ∧
    r.urls = orNA (joinCommaSp (contactResult eff.contact).2.1) ∧
    r.phone = orNA (joinCommaSp (contactResult eff.contact).2.2) ∧
    (eff.skillsBlock = Except.error () → r.skills = "N/A") := by
  unfold extractAlumniFromElement at h
  cases hl : eff.profileLinkFound with
  | false => rw [hl] at h; simp at h
  | true =>
    rw [hl] at h
    cases hcn : eff.clickNav with
    | error e => rw [hcn] at h; simp at h
    | ok u =>
      rw [hcn] at h
      cases hnb : eff.navBack with
      | error e => rw [hnb] at h; simp at h
      | ok v =>
        rw [hnb] at h
        simp only [Bool.not_true] at h
        rw [if_neg (by simp : ¬(false = true))] at h
        rw [Option.some.injEq] at h
        subst h
        refine ⟨rfl, ?_, ?_, ?_, ?_, rfl, rfl, rfl, rfl, ?_⟩
        · intro hd; simp [hd]
        · intro hd; simp [hd]
        · intro he; simp [he]
        · intro he; simp [he]
        · intro he; simp [he, joinCommaSp, orNA]

/-- Extraction returns null when one of the unprotected navigations throws. -/
theorem extract_none_of_nav (eff : ExtractEffects)
    (h : eff.clickNav = Except.error () ∨ eff.navBack = Except.error ()) :
    extractAlumniFromElement eff = none := by
  cases h with
  | inl hc =>
    cases hl : eff.profileLinkFound <;>
      simp [extractAlumniFromElement, hl, hc]
  | inr hn =>
    cases hl : eff.profileLinkFound with
    | false => simp [extractAlumniFromElement, hl]
    | true =>
      cases hcn : eff.clickNav <;>
        simp [extractAlumniFromElement, hl, hcn, hn]

/-- A null extraction leaves the crawl state unchanged and the card loop
continues with the remaining cards. -/
theorem foldl_cons_none (st : CrawlState) (rest : List (Option AlumniRecord)) :
    List.foldl processCardCapped st (none :: rest) =
      List.foldl processCardCapped st rest := by
  have hstep : processCardCapped st none = st := by
    unfold processCardCapped processCard
    split <;> rfl
  simp [List.foldl_cons, hstep]

/-- C9: every crawlSearchResults invocation returns at most 1000 records
(both loops stop at the cap), and the stealth override accepts at most
maxProfilesPerSession = 50 new profiles per call. -/
theorem hard_profile_caps :
    (∀ file written rounds,
      (crawlCall file written rounds).results.length ≤ 1000) ∧
    (∀ file rounds, (stealthCall file rounds).results.length ≤ 50) := by
  constructor
  · intro file written rounds
    exact runRounds_le rounds _ (by simp)
  · intro file rounds
    have h := stealthRounds_inv rounds
      { existing := parseNamesOpt file, results := [], file := file,
        session := 0 } (by simp [maxProfilesPerSession])
    calc (stealthCall file rounds).results.length
        ≤ (stealthCall file rounds).session := h.1
      _ ≤ 50 := h.2

/-! ### C7: email bucketing. -/

/-- C7: the email list is partitioned by the institutional-domain suffix
test — every record field pair comes from the two complementary filters of
the same list, an address passing the test lands exactly in the Stanford
bucket and any other address exactly in the personal bucket, an empty bucket
is written as the N/A sentinel, and alice at stanford.edu is institutional
while alice at gmail.com is personal. -/
theorem email_bucketing :
    (∀ eff r, extractAlumniFromElement eff = some r →
      r.stanfordEmail = stanfordEmailField (contactResult eff.contact).1 ∧
      r.personalEmail = personalEmailField (contactResult eff.contact).1) ∧
    (∀ (emails : List String) (e : String), e ∈ emails →
      (isStanfordEmail e = true →
        e ∈ emails.filter isStanfordEmail ∧
        e ∉ emails.filter (fun x => !isStanfordEmail x)) ∧
      (isStanfordEmail e = false →
        e ∉ emails.filter isStanfordEmail ∧
        e ∈ emails.filter (fun x => !isStanfordEmail x))) ∧
    (∀ emails : List String, emails.filter isStanfordEmail = [] →
      stanfordEmailField emails = "N/A") ∧
    (∀ emails : List String,
      emails.filter (fun x => !isStanfordEmail x) = [] →
      personalEmailField emails = "N/A") ∧
    (isStanfordEmail "alice@stanford.edu" = true ∧
     isStanfordEmail "alice@gmail.com" = false ∧
     extractAlumniFromElement effEmails = some recEmails ∧
     recEmails.stanfordEmail = "alice@stanford.edu" ∧
     recEmails.personalEmail = "alice@gmail.com") := by
  refine ⟨?_, ?_, ?_, ?_, by decide, by decide, by decide, rfl, rfl⟩
  · intro eff r h
    have hs := extract_some_spec eff r h
    exact ⟨hs.2.2.2.2.2.1, hs.2.2.2.2.2.2.1⟩
  · intro emails e he
    constructor
    · intro hst
      constructor
      · simp [List.mem_filter, he, hst]
      · simp [List.mem_filter, hst]
    · intro hst
      constructor
      · simp [List.mem_filter, hst]
      · simp [List.mem_filter, he, hst]
  · intro emails hf
    simp [stanfordEmailField, hf, joinCommaSp, orNA]
  · intro emails hf
    simp [personalEmailField, hf, joinCommaSp, orNA]

/-- Witness for C7: the two claim addresses land in their buckets. -/
theorem email_bucketing_witness :
    "alice@stanford.edu" ∈
        (["alice@stanford.edu", "alice@gmail.com"].filter isStanfordEmail) ∧
      "alice@gmail.com" ∈
        (["alice@stanford.edu", "alice@gmail.com"].filter
          (fun x => !isStanfordEmail x)) ∧
      recEmails.stanfordEmail = stanfordEmailField
        (contactResult effEmails.contact).1 :=
  ⟨((email_bucketing.2.1 ["alice@stanford.edu", "alice@gmail.com"]
      "alice@stanford.edu" (by simp)).1 (by decide)).1,
   ((email_bucketing.2.1 ["alice@stanford.edu", "alice@gmail.com"]
      "alice@gmail.com" (by simp)).2 (by decide)).2,
   (email_bucketing.1 effEmails recEmails (by decide)).1⟩

/-! ### C6: name validity filter. -/

/-- A non-empty char list renders to a non-empty string. -/
theorem asString_ne_empty (l : Chars) (h : l ≠ []) : l.asString ≠ "" := by
  intro he
  exact h (by simpa using congrArg String.toList he)

/-- The head of a list is a member. -/
theorem mem_of_head? {α : Type} {l : List α} {a : α} (h : l.head? = some a) :
    a ∈ l := by
  cases l with
  | nil => simp at h
  | cons x xs =>
    simp only [List.head?, Option.some.injEq] at h
    exact h ▸ List.mem_cons_self x xs

/-- The name-selector loop only yields non-empty names. -/
theorem nameFromCandidates_ne (cands : List (Option String)) (n : String)
    (h : nameFromCandidates cands = some n) : n ≠ "" := by
  unfold nameFromCandidates at h
  obtain ⟨o, ho, hfo⟩ := List.mem_filterMap.mp (mem_of_head? h)
  cases o with
  | none => simp at hfo
  | some t =>
    simp only [Option.bind] at hfo
    by_cases ht : jsTrim t = ""
    · simp [ht] at hfo
    · simp only [ht, if_neg] at hfo
      simp at hfo
      exact hfo ▸ ht

/-- The fallback first-line name is non-empty. -/
theorem firstNonemptyLine_ne (t n : String)
    (h : firstNonemptyLine t = some n) : n ≠ "" := by
  unfold firstNonemptyLine at h
  obtain ⟨l, hlm, hfo⟩ := List.mem_filterMap.mp (mem_of_head? h)
  by_cases he : (trimChars l).isEmpty
  · simp [he] at hfo
  · simp only [he, if_neg] at hfo
    simp at hfo
    have hne : trimChars l ≠ [] := by
      intro h0
      exact he (by simp [h0, List.isEmpty])
    exact hfo ▸ asString_ne_empty (trimChars l) hne

/-- The extracted name is never the empty string. -/
theorem extractName_ne (eff : ExtractEffects) : extractName eff ≠ "" := by
  unfold extractName
  cases hn : nameFromCandidates eff.nameCandidates with
  | some n => exact nameFromCandidates_ne _ n hn
  | none =>
    cases hct : eff.cardText with
    | error e => simp
    | ok t =>
      cases hfl : firstNonemptyLine t with
      | none => simp [hfl]
      | some l => simpa [hfl] using firstNonemptyLine_ne t l hfl

/-- C6: a newly extracted record passes the validity filter only with a
non-empty name that is shorter than 200 characters and contains none of the
denylisted site-chrome substrings; and every name containing a denylisted
substring is rejected by the filter. -/
theorem name_validity_filter :
    (∀ eff r, extractAlumniFromElement eff = some r →
      isValidAlumni r.name = true →
      r.name ≠ "" ∧ r.name.length < 200 ∧
      ∀ d ∈ denylist, jsIncludes r.name d = false) ∧
    (∀ n d, d ∈ denylist → jsIncludes n d = true →
      isValidAlumni n = false) := by
  constructor
  · intro eff r h hv
    have hs := extract_some_spec eff r h
    simp only [isValidAlumni, Bool.and_eq_true, Bool.not_eq_true',
      decide_eq_true_eq] at hv
    refine ⟨hs.1 ▸ extractName_ne eff, hv.1.1.2, ?_⟩
    intro d hd
    simp only [denylist, List.mem_cons, List.not_mem_nil, or_false] at hd
    rcases hd with rfl | rfl | rfl | rfl | rfl | rfl
    · exact hv.1.1.1.1.1.1
    · exact hv.1.1.1.1.1.2
    · exact hv.1.1.1.1.2
    · exact hv.1.1.1.2
    · exact hv.1.2
    · exact hv.2
  · intro n d hd hi
    simp only [denylist, List.mem_cons, List.not_mem_nil, or_false] at hd
    rcases hd with rfl | rfl | rfl | rfl | rfl | rfl <;>
      simp [isValidAlumni, hi]

/-- Witness for C6: the concrete all-sentinel extraction passes the filter
with a clean non-empty name, and the site-chrome string of the claim is
rejected. -/
theorem name_validity_filter_witness :
    recFieldsFail.name ≠ "" ∧ recFieldsFail.name.length < 200 ∧
      isValidAlumni "Stanford Alumni Directory" = false :=
  ⟨(name_validity_filter.1 effFieldsFail recFieldsFail (by decide)
      (by decide)).1,
   (name_validity_filter.1 effFieldsFail recFieldsFail (by decide)
      (by decide)).2.1,
   name_validity_filter.2 "Stanford Alumni Directory" "Alumni Directory"
     (by simp [denylist]) (by decide)⟩

/-! ### C3: extraction fallback contract. -/

/-- C3: no field-extraction step raises past extractAlumniFromElement — a
failing degree, location or company evaluate resolves to the N/A sentinel; a
contact block that finds nothing (selectors empty and the unguarded fallback
evaluate throwing) leaves both email fields, and empty URL and phone
accumulators leave their fields, at the sentinel, as does a throwing skills
block; a failure of the whole profile visit (a throw in either unprotected
navigation) makes the function return null; and a null extraction leaves the
per-card loop state unchanged so the loop continues with the remaining
cards. -/
theorem extraction_fallback :
    (∀ eff r, extractAlumniFromElement eff = some r →
      (eff.degreeEvalThrew = true → r.degree = "N/A") ∧
      (eff.locationEval = Except.error () → r.location = "N/A") ∧
      (eff.companyEval = Except.error () → r.company = "N/A") ∧
      (eff.contact.emailSelAcc = [] →
        eff.contact.fallbackEval = Except.error () →
        r.stanfordEmail = "N/A" ∧ r.personalEmail = "N/A") ∧
      (eff.contact.urlsAcc = [] → r.urls = "N/A") ∧
      (eff.contact.phonesAcc = [] → r.phone = "N/A") ∧
      (eff.skillsBlock = Except.error () → r.skills = "N/A")) ∧
    (∀ eff, eff.clickNav = Except.error () ∨ eff.navBack = Except.error () →
      extractAlumniFromElement eff = none) ∧
    (∀ st rest, List.foldl processCardCapped st (none :: rest) =
      List.foldl processCardCapped st rest) := by
  refine ⟨?_, extract_none_of_nav, foldl_cons_none⟩
  intro eff r h
  have hs := extract_some_spec eff r h
  refine ⟨hs.2.1, hs.2.2.2.1, hs.2.2.2.2.1, ?_, ?_, ?_, hs.2.2.2.2.2.2.2.2.2⟩
  · intro hsel hfb
    have hc : (contactResult eff.contact).1 = [] := by
      simp [contactResult, hsel, hfb]
    constructor
    · rw [hs.2.2.2.2.2.1, hc]; rfl
    · rw [hs.2.2.2.2.2.2.1, hc]; rfl
  · intro hu
    have hc : (contactResult eff.contact).2.1 = [] := by
      unfold contactResult
      by_cases hsel : eff.contact.emailSelAcc.isEmpty
      · cases hfb : eff.contact.fallbackEval with
        | error e => simp [hsel, hfb, hu]
        | ok ms => simp [hsel, hfb, hu, dedupFirst, dedupFirstAux]
      · simp [hsel, hu, dedupFirst, dedupFirstAux]
    rw [hs.2.2.2.2.2.2.2.1, hc]; rfl
  · intro hp
    have hc : (contactResult eff.contact).2.2 = [] := by
      unfold contactResult
      by_cases hsel : eff.contact.emailSelAcc.isEmpty
      · cases hfb : eff.contact.fallbackEval with
        | error e => simp [hsel, hfb, hp]
        | ok ms => simp [hsel, hfb, hp, dedupFirst, dedupFirstAux]
      · simp [hsel, hp, dedupFirst, dedupFirstAux]
    rw [hs.2.2.2.2.2.2.2.2.1, hc]; rfl

/-- Witness for C3: the concrete all-failing effects produce the all-sentinel
record, the navigation failure produces null, and the loop continues. -/
theorem extraction_fallback_witness :
    recFieldsFail.degree = "N/A" ∧ recFieldsFail.stanfordEmail = "N/A" ∧
      recFieldsFail.skills = "N/A" ∧
      extractAlumniFromElement effNavFail = none ∧
      List.foldl processCardCapped stEmpty [none] =
        List.foldl processCardCapped stEmpty [] :=
  ⟨(extraction_fallback.1 effFieldsFail recFieldsFail (by decide)).1 rfl,
   ((extraction_fallback.1 effFieldsFail recFieldsFail (by decide)).2.2.2.1
      rfl rfl).1,
   (extraction_fallback.1 effFieldsFail recFieldsFail
      (by decide)).2.2.2.2.2.2 rfl,
   extraction_fallback.2.1 effNavFail (Or.inr rfl),
   extraction_fallback.2.2 stEmpty []⟩

/-! ### C8: degree extraction (corrected). -/

/-- C8 counterexample: a profile text whose first 500 characters contain
the substring MBA-apostrophe-24, yet the degree extractor returns a
different, earlier prominent-degree match. -/
theorem degree_first500_claim_false :
    jsIncludes degreeCexText mba24 = true ∧
    degreeCexText.length ≤ 500 ∧
    extractDegreeEval degreeCexText = ba99 ∧
    ba99 ≠ mba24 :=
  ⟨by decide, by decide, by decide, by decide⟩

/-- C8 (amended): the degree extractor returns the trimmed leftmost match of
the prominent-degree pattern within the first 500 characters whenever that
pattern matches there — taking priority over the Degrees-section,
full-degree-name and simple-pattern fallbacks — so MBA-apostrophe-24 is
returned exactly when it is the first such match. -/
theorem degree_method1_first :
    (∀ t m, prominentDegreeMatch (t.toList.take 500) = some m →
      extractDegreeEval t = (trimChars m).asString) ∧
    (∀ eff r, eff.degreeEvalThrew = false →
      extractAlumniFromElement eff = some r →
      r.degree = extractDegreeEval eff.pageText) := by
  constructor
  · intro t m h
    have h' : prominentDegreeMatch (List.take 500 t.data) = some m := h
    simp [extractDegreeEval, degreeMethod1, h']
  · intro eff r hd h
    exact (extract_some_spec eff r h).2.2.1 hd

/-- Witness for C8: on a text starting with the MBA-apostrophe-24 degree the
extractor returns exactly that degree. -/
theorem degree_method1_first_witness :
    extractDegreeEval degreeOkText = mba24 := by
  have h := degree_method1_first.1 degreeOkText mba24.toList (by decide)
  rw [h]; decide

/-! ### CSV round-trip lemmas for the dedup and incremental-write claims. -/

/-- Quote escaping introduces no character other than quotes. -/
theorem escQ_not_mem (c : Char) (hc : c ≠ qchar) (l : Chars) (h : c ∉ l) :
    c ∉ escQ l := by
  induction l with
  | nil => simp [escQ]
  | cons x xs ih =>
    simp only [List.mem_cons, not_or] at h
    unfold escQ
    by_cases hx : x = qchar
    · simp [hx, hc, ih h.2]
    · simp [hx, h.1, ih h.2]

/-- A newline-free field serializes to a newline-free CSV field. -/
theorem csvField_nl_not_mem (f : Chars) (h : '\n' ∉ f) : '\n' ∉ csvField f := by
  unfold csvField
  by_cases hq : needsQuote f = true
  · simp only [hq, if_pos]
    intro hmem
    rcases List.mem_cons.mp hmem with h1 | h1
    · exact absurd h1 (by decide)
    · rcases List.mem_append.mp h1 with h2 | h2
      · exact escQ_not_mem '\n' (by decide) f h h2
      · exact absurd (List.mem_singleton.mp h2) (by decide)
  · simpa [hq] using h

/-- Joining newline-free fields with commas stays newline-free. -/
theorem joinFields_nl (fs : List Chars) (h : ∀ f ∈ fs, '\n' ∉ f) :
    '\n' ∉ joinFields fs := by
  induction fs with
  | nil => simp [joinFields]
  | cons f rest ih =>
    cases rest with
    | nil => simpa [joinFields] using h f (by simp)
    | cons g t =>
      have hrow : joinFields (f :: g :: t) = f ++ ',' :: joinFields (g :: t) :=
        rfl
      rw [hrow]
      simp only [List.mem_append, List.mem_cons, not_or]
      exact ⟨h f (by simp), by decide,
        ih (fun x hx => h x (List.mem_cons_of_mem f hx))⟩

/-- The row of a round-trip-robust record contains no newline. -/
theorem rowOf_nl (r : AlumniRecord) (h : robustRecord r = true) :
    '\n' ∉ rowOf r := by
  have hsplit : robustName r.name = true ∧
      (fieldsOf r).all
        (fun f => !f.toList.contains '\n' && !f.toList.contains '\r') =
        true := by
    simpa [robustRecord, Bool.and_eq_true] using h
  have hf : ∀ f ∈ fieldsOf r, '\n' ∉ f.toList := by
    intro f hfm
    have h2 := List.all_eq_true.mp hsplit.2 f hfm
    simp only [Bool.and_eq_true, Bool.not_eq_true'] at h2
    intro hm
    have h3 : f.toList.contains '\n' = true := by simpa using hm
    rw [h3] at h2
    exact Bool.noConfusion h2.1
  unfold rowOf
  refine joinFields_nl _ ?_
  intro f hfm
  obtain ⟨g, hg, rfl⟩ := List.mem_map.mp hfm
  exact csvField_nl_not_mem g.toList (hf g hg)

/-- The header row contains no newline. -/
theorem headerRow_nl : '\n' ∉ headerRow := by decide

/-- Splitting the concatenated rows recovers one line per record plus the
empty line after the trailing record delimiter. -/
theorem splitCh_rowsOf (ws : List AlumniRecord)
    (h : ∀ r ∈ ws, '\n' ∉ rowOf r) :
    splitCh '\n' (rowsOf ws) = ws.map rowOf ++ [[]] := by
  induction ws with
  | nil => simp [rowsOf, splitCh]
  | cons r rs ih =>
    have hrow : rowsOf (r :: rs) = rowOf r ++ '\n' :: rowsOf rs := rfl
    rw [hrow, splitCh_append, splitCh_of_not_mem '\n' (rowOf r) (h r (by simp)),
      ih (fun x hx => h x (List.mem_cons_of_mem r hx))]
    simp

/-- The blank trailing line parses to nothing. -/
theorem parseLine_nil : parseLine [] = none := rfl

/-- Trimming a line that starts with a non-blank character and reaches a
comma keeps the text before the comma intact. -/
theorem trimChars_cons_comma (c : Char) (cs rest : Chars)
    (hc : wsp c = false) :
    ∃ rest2, trimChars ((c :: cs) ++ ',' :: rest) = (c :: cs) ++ ',' :: rest2 := by
  have h1 : ((c :: cs) ++ ',' :: rest).dropWhile wsp =
      (c :: cs) ++ ',' :: rest := by
    simp [List.dropWhile, hc]
  have h2 : ((c :: cs) ++ ',' :: rest).reverse =
      rest.reverse ++ ',' :: (c :: cs).reverse := by
    simp
  unfold trimChars
  rw [h1, h2]
  by_cases hA : rest.reverse.dropWhile wsp = []
  · rw [dropWhile_append_of_nil wsp _ _ hA]
    refine ⟨[], ?_⟩
    have h3 : (',' :: (c :: cs).reverse).dropWhile wsp =
        ',' :: (c :: cs).reverse := by
      simp [List.dropWhile, show wsp ',' = false from by decide]
    rw [h3]
    simp
  · rw [dropWhile_append_of_ne_nil wsp _ _ hA]
    refine ⟨(rest.reverse.dropWhile wsp).reverse, ?_⟩
    simp

/-- The name parsed back out of the row of a robust record is the record's
name. -/
theorem parseLine_rowOf (r : AlumniRecord) (h : robustRecord r = true) :
    parseLine (rowOf r) = some r.name := by
  have hn : robustName r.name = true := by
    simp only [robustRecord, Bool.and_eq_true] at h
    exact h.1
  simp only [robustName, Bool.and_eq_true, Bool.not_eq_true'] at hn
  obtain ⟨⟨⟨⟨⟨⟨hemp, hcomma⟩, hq⟩, hnl⟩, hcr⟩, hhead⟩, hlast⟩ := hn
  obtain ⟨c, cs, hcons⟩ : ∃ c cs, r.name.toList = c :: cs := by
    cases hL : r.name.toList with
    | nil => rw [hL] at hhead; simp at hhead
    | cons c cs => exact ⟨c, cs, rfl⟩
  have hcw : wsp c = false := by
    rw [hcons] at hhead
    simpa using hhead
  have hmc : ',' ∉ r.name.toList := by
    intro hm
    have h2 : r.name.toList.contains ',' = true := by simpa using hm
    rw [h2] at hcomma
    exact Bool.noConfusion hcomma
  have hmq : qchar ∉ r.name.toList := by
    intro hm
    have h2 : r.name.toList.contains qchar = true := by simpa using hm
    rw [h2] at hq
    exact Bool.noConfusion hq
  have hmn : '\n' ∉ r.name.toList := by
    intro hm
    have h2 : r.name.toList.contains '\n' = true := by simpa using hm
    rw [h2] at hnl
    exact Bool.noConfusion hnl
  have hmr : '\r' ∉ r.name.toList := by
    intro hm
    have h2 : r.name.toList.contains '\r' = true := by simpa using hm
    rw [h2] at hcr
    exact Bool.noConfusion hcr
  have hfield : csvField r.name.toList = r.name.toList := by
    have h2 : needsQuote r.name.toList = false := by
      simp only [needsQuote, Bool.or_eq_false_iff]
      refine ⟨⟨⟨?_, ?_⟩, ?_⟩, ?_⟩
      · simpa using hmc
      · simpa using hmq
      · simpa using hmn
      · simpa using hmr
    have h2d : needsQuote r.name.data = false := h2
    simp [csvField, h2d]
  obtain ⟨tail, htail⟩ :
      ∃ tail, rowOf r = csvField r.name.toList ++ ',' :: tail := ⟨_, rfl⟩
  rw [hfield, hcons] at htail
  rw [hcons] at hmc hmq
  have hcq : c ≠ qchar := fun he => hmq (he ▸ List.mem_cons_self c cs)
  obtain ⟨rest2, htrim⟩ := trimChars_cons_comma c cs tail hcw
  unfold parseLine
  rw [htail, htrim]
  have hidx : idxOfCh ',' ((c :: cs) ++ ',' :: rest2) = some (c :: cs).length :=
    idxOfCh_append_cons ',' (c :: cs) rest2 hmc
  simp only [List.isEmpty, hidx]
  rw [if_neg (by simp)]
  rw [if_pos (by simp)]
  have htake : ((c :: cs) ++ ',' :: rest2).take (c :: cs).length = c :: cs :=
    List.take_left (c :: cs) (',' :: rest2)
  rw [htake]
  have hstrip : stripQuotes (c :: cs) = c :: cs := by
    unfold stripQuotes
    rw [if_neg]
    intro hcond
    have := hcond.1
    simp only [List.head?, Option.some.injEq] at this
    exact hcq this
  rw [hstrip, ← hcons, asString_toList]

/-- Parsing the file content written for robust records recovers exactly
their names, in order. -/
theorem parseNames_contentOf (ws : List AlumniRecord)
    (h : ∀ r ∈ ws, robustRecord r = true) :
    parseNames (contentOf ws) = ws.map (·.name) := by
  have hrows : ∀ r ∈ ws, '\n' ∉ rowOf r := fun r hr => rowOf_nl r (h r hr)
  have hsplit : splitCh '\n' (contentOf ws) =
      headerRow :: (ws.map rowOf ++ [[]]) := by
    unfold contentOf
    rw [splitCh_append '\n' headerRow (rowsOf ws),
      splitCh_of_not_mem '\n' headerRow headerRow_nl, splitCh_rowsOf ws hrows]
    rfl
  unfold parseNames
  rw [hsplit]
  simp only [List.drop_succ_cons, List.drop_zero, List.filterMap_append]
  have hmap : ∀ ws' : List AlumniRecord, (∀ r ∈ ws', robustRecord r = true) →
      (ws'.map rowOf).filterMap parseLine = ws'.map (·.name) := by
    intro ws'
    induction ws' with
    | nil => intro _; rfl
    | cons r rs ih =>
      intro h'
      simp only [List.map_cons, List.filterMap_cons,
        parseLine_rowOf r (h' r (by simp))]
      rw [ih (fun x hx => h' x (List.mem_cons_of_mem r hx))]
  rw [hmap ws h]
  simp [parseLine_nil]

/-- Appending one record's rows. -/
theorem rowsOf_append (ws : List AlumniRecord) (r : AlumniRecord) :
    rowsOf (ws ++ [r]) = rowsOf ws ++ (rowOf r ++ ['\n']) := by
  induction ws with
  | nil => simp [rowsOf]
  | cons w rest ih => simp [rowsOf, ih]

/-- saveIncrementalCSV takes the file from the state for n records to the
state for n+1 records: the first write creates the header, later writes
append exactly one row. -/
theorem saveIncr_buildFile (ws : List AlumniRecord) (r : AlumniRecord) :
    saveIncr (buildFile ws) r = contentOf (ws ++ [r]) := by
  cases ws with
  | nil => rfl
  | cons w rest =>
    have hb : buildFile (w :: rest) = some (contentOf (w :: rest)) := rfl
    rw [hb]
    unfold saveIncr contentOf
    rw [rowsOf_append]
    simp

/-- The file for a non-empty written list is present. -/
theorem buildFile_append (ws : List AlumniRecord) (r : AlumniRecord) :
    buildFile (ws ++ [r]) = some (contentOf (ws ++ [r])) := by
  unfold buildFile
  rw [if_neg (by simp)]

/-- Processing one card preserves the file/trace correspondence. -/
theorem processCard_fileInv (st : CrawlState) (c : Option AlumniRecord)
    (h : FileInv st) : FileInv (processCard st c) := by
  cases c with
  | none => exact h
  | some r =>
    show FileInv
      (if isValidAlumni r.name = true then
        if st.existing.contains r.name = true then st
        else
          { existing := r.name :: st.existing, results := st.results ++ [r],
            file := some (saveIncr st.file r),
            written := st.written ++ [r] }
      else st)
    by_cases hv : isValidAlumni r.name = true
    · by_cases he : r.name ∈ st.existing
      · simpa [hv, he] using h
      · rw [if_pos hv,
          if_neg (show ¬(st.existing.contains r.name = true) by simpa using he)]
        show some (saveIncr st.file r) = buildFile (st.written ++ [r])
        rw [h, saveIncr_buildFile, buildFile_append]
    · simpa [hv] using h

/-- The capped card step preserves the file/trace correspondence. -/
theorem processCardCapped_fileInv (st : CrawlState) (c : Option AlumniRecord)
    (h : FileInv st) : FileInv (processCardCapped st c) := by
  unfold processCardCapped
  by_cases hl : st.results.length < 1000
  · simpa [hl] using processCard_fileInv st c h
  · simpa [hl] using h

/-- Every prefix of the card fold preserves the file/trace correspondence
(so at every intermediate state the sink holds exactly the accepted
records). -/
theorem foldl_fileInv (cards : List (Option AlumniRecord)) :
    ∀ st : CrawlState, FileInv st →
      FileInv (cards.foldl processCardCapped st) := by
  induction cards with
  | nil => exact fun st h => h
  | cons c cs ih => exact fun st h => ih _ (processCardCapped_fileInv st c h)

/-- The page loop preserves the file/trace correspondence. -/
theorem runRounds_fileInv (rounds : List PageRound) :
    ∀ st : CrawlState, FileInv st → FileInv (runRounds st rounds) := by
  induction rounds with
  | nil => exact fun st h => h
  | cons pr rest ih =>
    intro st h
    unfold runRounds
    by_cases hl : st.results.length < 1000
    · simp only [if_pos hl]
      have h' := foldl_fileInv pr.cards st h
      by_cases hn : nextPageOf pr
      · by_cases hw : pr.waitOk
        · simpa [hn, hw] using ih _ h'
        · simpa [hn, hw] using h'
      · simpa [hn] using h'
    · simpa [if_neg hl] using h

/-- The whole call sequence preserves the file/trace correspondence. -/
theorem crawlCalls_fileInv (calls : List (List PageRound)) :
    ∀ t : SinkTrace, t.file = buildFile t.written →
      (crawlCalls t calls).file = buildFile (crawlCalls t calls).written := by
  induction calls with
  | nil => exact fun t h => h
  | cons rounds rest ih =>
    intro t h
    unfold crawlCalls crawlCall
    exact ih _ (runRounds_fileInv rounds _ h)

/-! ### C2: incremental write contract. -/

/-- C2: the first write creates the file with the fixed column header and
one data row, every later write appends exactly one data row to the existing
content (the append flag is exactly the file's existence); an accepted record
is saved by exactly one saveIncrementalCSV call made before the loop
advances, so after any number of processed cards, and at the end of every
call sequence, the sink holds exactly the header plus one row per accepted
record — a crash loses at most the one in-flight record. -/
theorem incremental_write_contract :
    (∀ r, saveIncr none r = headerRow ++ '\n' :: (rowOf r ++ ['\n'])) ∧
    (∀ c r, saveIncr (some c) r = c ++ (rowOf r ++ ['\n'])) ∧
    (∀ st r, isValidAlumni r.name = true →
      st.existing.contains r.name = false →
      processCard st (some r) =
        { existing := r.name :: st.existing, results := st.results ++ [r],
          file := some (saveIncr st.file r),
          written := st.written ++ [r] }) ∧
    (∀ (st : CrawlState) (cards : List (Option AlumniRecord)) (k : Nat),
      FileInv st →
      FileInv (List.foldl processCardCapped st (cards.take k))) ∧
    (∀ calls, (crawlCalls initSink calls).file =
      buildFile (crawlCalls initSink calls).written) := by
  refine ⟨fun r => rfl, fun c r => rfl, ?_, ?_, ?_⟩
  · intro st r hv he
    show (if isValidAlumni r.name = true then
        if st.existing.contains r.name = true then st
        else
          { existing := r.name :: st.existing, results := st.results ++ [r],
            file := some (saveIncr st.file r),
            written := st.written ++ [r] }
      else st) = _
    rw [if_pos hv, if_neg (show ¬(st.existing.contains r.name = true) by
      intro hq; rw [hq] at he; exact Bool.noConfusion he)]
  · intro st cards k h
    exact foldl_fileInv (cards.take k) st h
  · intro calls
    exact crawlCalls_fileInv calls initSink rfl

/-- Witness for C2: a concrete accepted record is saved immediately with the
append decision taken from the file's existence. -/
theorem incremental_write_contract_witness :
    processCard stEmpty (some rSafe) =
      { existing := rSafe.name :: stEmpty.existing,
        results := stEmpty.results ++ [rSafe],
        file := some (saveIncr stEmpty.file rSafe),
        written := stEmpty.written ++ [rSafe] } :=
  incremental_write_contract.2.2.1 stEmpty rSafe (by decide) (by decide)

/-! ### C1: dedup invariant (corrected). -/

/-- Processing one robust card preserves the call invariant. -/
theorem processCard_callInv (st : CrawlState) (c : Option AlumniRecord)
    (hrob : ∀ r, c = some r → robustRecord r = true)
    (h : CallInv st) : CallInv (processCard st c) := by
  cases c with
  | none => exact h
  | some r =>
    have hr := hrob r rfl
    show CallInv
      (if isValidAlumni r.name = true then
        if st.existing.contains r.name = true then st
        else
          { existing := r.name :: st.existing, results := st.results ++ [r],
            file := some (saveIncr st.file r),
            written := st.written ++ [r] }
      else st)
    by_cases hv : isValidAlumni r.name = true
    · by_cases he : r.name ∈ st.existing
      · rw [if_pos hv, if_pos (by simpa using he)]
        exact h
      · rw [if_pos hv,
          if_neg (show ¬(st.existing.contains r.name = true) by simpa using he)]
        obtain ⟨h1, h2, h3, h4⟩ := h
        refine ⟨?_, ?_, ?_, ?_⟩
        · show some (saveIncr st.file r) = buildFile (st.written ++ [r])
          rw [h1, saveIncr_buildFile, buildFile_append]
        · intro x hx
          rcases List.mem_append.mp hx with hx | hx
          · exact h2 x hx
          · rw [List.mem_singleton.mp hx]
            exact hr
        · show ((st.written ++ [r]).map (·.name)).Nodup
          rw [List.map_append]
          refine List.Nodup.append h3 (by simp) ?_
          intro a ha hb
          rw [List.map_singleton, List.mem_singleton] at hb
          subst hb
          exact he (h4 _ ha)
        · intro n hn
          rw [List.map_append] at hn
          rcases List.mem_append.mp hn with hn | hn
          · exact List.mem_cons_of_mem _ (h4 n hn)
          · rw [List.map_singleton, List.mem_singleton] at hn
            exact hn ▸ List.mem_cons_self _ _
    · rw [if_neg hv]
      exact h

/-- The capped card step preserves the call invariant. -/
theorem processCardCapped_callInv (st : CrawlState) (c : Option AlumniRecord)
    (hrob : ∀ r, c = some r → robustRecord r = true)
    (h : CallInv st) : CallInv (processCardCapped st c) := by
  unfold processCardCapped
  by_cases hl : st.results.length < 1000
  · simpa [hl] using processCard_callInv st c hrob h
  · simpa [hl] using h

/-- The card fold preserves the call invariant. -/
theorem foldl_callInv (cards : List (Option AlumniRecord)) :
    ∀ st : CrawlState,
      (∀ c ∈ cards, ∀ r, c = some r → robustRecord r = true) → CallInv st →
      CallInv (cards.foldl processCardCapped st) := by
  induction cards with
  | nil => exact fun st _ h => h
  | cons c cs ih =>
    intro st hc h
    exact ih _ (fun x hx => hc x (List.mem_cons_of_mem c hx))
      (processCardCapped_callInv st c (hc c (by simp)) h)

/-- Unpacking the round robustness flag. -/
theorem roundRobust_cards (pr : PageRound) (h : roundRobust pr = true) :
    ∀ c ∈ pr.cards, ∀ r, c = some r → robustRecord r = true := by
  intro c hc r hr
  have h2 := List.all_eq_true.mp h c hc
  subst hr
  simpa using h2

/-- The page loop preserves the call invariant. -/
theorem runRounds_callInv (rounds : List PageRound) :
    ∀ st : CrawlState, (∀ pr ∈ rounds, roundRobust pr = true) → CallInv st →
      CallInv (runRounds st rounds) := by
  induction rounds with
  | nil => exact fun st _ h => h
  | cons pr rest ih =>
    intro st hc h
    unfold runRounds
    by_cases hl : st.results.length < 1000
    · simp only [if_pos hl]
      have h' := foldl_callInv pr.cards st
        (roundRobust_cards pr (hc pr (by simp))) h
      by_cases hn : nextPageOf pr
      · by_cases hw : pr.waitOk
        · simpa [hn, hw] using
            ih _ (fun x hx => hc x (List.mem_cons_of_mem pr hx)) h'
        · simpa [hn, hw] using h'
      · simpa [hn] using h'
    · simpa [if_neg hl] using h

/-- A crawl call seeded from a sound sink establishes the call invariant. -/
theorem crawlCall_callInv (t : SinkTrace) (rounds : List PageRound)
    (hrob : ∀ pr ∈ rounds, roundRobust pr = true) (h : SinkInv t) :
    CallInv (crawlCall t.file t.written rounds) := by
  unfold crawlCall
  apply runRounds_callInv rounds _ hrob
  obtain ⟨h1, h2, h3⟩ := h
  refine ⟨h1, h2, h3, ?_⟩
  intro n hn
  show n ∈ parseNamesOpt t.file
  rw [h1]
  by_cases hw : t.written = []
  · rw [hw] at hn
    simp at hn
  · have hb : buildFile t.written = some (contentOf t.written) := by
      unfold buildFile
      rw [if_neg (by simpa using hw)]
    rw [hb]
    show n ∈ parseNames (contentOf t.written)
    rw [parseNames_contentOf t.written h2]
    simpa using hn

/-- The call sequence preserves soundness of the sink. -/
theorem crawlCalls_sinkInv (calls : List (List PageRound)) :
    ∀ t : SinkTrace,
      (∀ rounds ∈ calls, ∀ pr ∈ rounds, roundRobust pr = true) → SinkInv t →
      SinkInv (crawlCalls t calls) := by
  induction calls with
  | nil => exact fun t _ h => h
  | cons rounds rest ih =>
    intro t hc h
    unfold crawlCalls
    have hcall := crawlCall_callInv t rounds (hc rounds (by simp)) h
    exact ih _ (fun rs hrs => hc rs (List.mem_cons_of_mem rounds hrs))
      ⟨hcall.1, hcall.2.1, hcall.2.2.1⟩

/-- Processing one card preserves the in-call results dedup invariant. -/
theorem processCard_resInv (st : CrawlState) (c : Option AlumniRecord)
    (h : ResInv st) : ResInv (processCard st c) := by
  cases c with
  | none => exact h
  | some r =>
    show ResInv
      (if isValidAlumni r.name = true then
        if st.existing.contains r.name = true then st
        else
          { existing := r.name :: st.existing, results := st.results ++ [r],
            file := some (saveIncr st.file r),
            written := st.written ++ [r] }
      else st)
    by_cases hv : isValidAlumni r.name = true
    · by_cases he : r.name ∈ st.existing
      · rw [if_pos hv, if_pos (by simpa using he)]
        exact h
      · rw [if_pos hv,
          if_neg (show ¬(st.existing.contains r.name = true) by simpa using he)]
        obtain ⟨h1, h2⟩ := h
        constructor
        · show ((st.results ++ [r]).map (·.name)).Nodup
          rw [List.map_append]
          refine List.Nodup.append h1 (by simp) ?_
          intro a ha hb
          rw [List.map_singleton, List.mem_singleton] at hb
          subst hb
          exact he (h2 _ ha)
        · intro n hn
          rw [List.map_append] at hn
          rcases List.mem_append.mp hn with hn | hn
          · exact List.mem_cons_of_mem _ (h2 n hn)
          · rw [List.map_singleton, List.mem_singleton] at hn
            exact hn ▸ List.mem_cons_self _ _
    · rw [if_neg hv]
      exact h

/-- The capped card step preserves the results dedup invariant. -/
theorem processCardCapped_resInv (st : CrawlState) (c : Option AlumniRecord)
    (h : ResInv st) : ResInv (processCardCapped st c) := by
  unfold processCardCapped
  by_cases hl : st.results.length < 1000
  · simpa [hl] using processCard_resInv st c h
  · simpa [hl] using h

/-- The card fold preserves the results dedup invariant. -/
theorem foldl_resInv (cards : List (Option AlumniRecord)) :
    ∀ st : CrawlState, ResInv st →
      ResInv (cards.foldl processCardCapped st) := by
  induction cards with
  | nil => exact fun st h => h
  | cons c cs ih => exact fun st h => ih _ (processCardCapped_resInv st c h)

/-- The page loop preserves the results dedup invariant. -/
theorem runRounds_resInv (rounds : List PageRound) :
    ∀ st : CrawlState, ResInv st → ResInv (runRounds st rounds) := by
  induction rounds with
  | nil => exact fun st h => h
  | cons pr rest ih =>
    intro st h
    unfold runRounds
    by_cases hl : st.results.length < 1000
    · simp only [if_pos hl]
      have h' := foldl_resInv pr.cards st h
      by_cases hn : nextPageOf pr
      · by_cases hw : pr.waitOk
        · simpa [hn, hw] using ih _ h'
        · simpa [hn, hw] using h'
      · simpa [hn] using h'
    · simpa [if_neg hl] using h

set_option maxRecDepth 8192 in
/-- C1 counterexample: starting from an absent output file, two successive
crawlSearchResults calls that each extract the same valid record named
Doe-comma-Jane write that name twice — the quoted name field is cut at its
first comma by getExistingNames on the second call, so the dedup seed never
matches and the sink ends with two data rows for one name. -/
theorem dedup_claim_false :
    (crawlCalls initSink [[cexRound], [cexRound]]).written.map (·.name) =
      [rJane.name, rJane.name] ∧
    rJane.name = "Doe, Jane" ∧
    isValidAlumni rJane.name = true ∧
    ¬ ((crawlCalls initSink [[cexRound], [cexRound]]).written.map
        (·.name)).Nodup :=
  ⟨by decide, rfl, by decide, by decide⟩

/-- C1 (amended): within a single crawlSearchResults call no name is ever
accepted twice; and across calls of the same or later runs the invariant
holds for every record that survives the CSV round-trip — name non-empty,
free of commas, quotes, line breaks and surrounding whitespace, and no line
break in any field — such a name appears in at most one data row of the
sink.  (As stated the claim fails: a name containing a comma is re-accepted
on a later call because getExistingNames recovers only the text before the
first comma of its quoted CSV field.) -/
theorem dedup_contract :
    (∀ calls, (∀ rounds ∈ calls, ∀ pr ∈ rounds, roundRobust pr = true) →
      ((crawlCalls initSink calls).written.map (·.name)).Nodup) ∧
    (∀ file written rounds,
      ((crawlCall file written rounds).results.map (·.name)).Nodup) := by
  constructor
  · intro calls h
    have h0 : SinkInv initSink :=
      ⟨rfl, fun r hr => absurd hr (by simp [initSink]), by simp [initSink]⟩
    exact (crawlCalls_sinkInv calls initSink h h0).2.2
  · intro file written rounds
    have h0 : ResInv
        { existing := parseNamesOpt file, results := [], file := file,
          written := written } := by
      constructor
      · simp
      · intro n hn
        simp at hn
    exact (runRounds_resInv rounds _ h0).1

/-- Witness for C1: two calls over a robust record write its name once. -/
theorem dedup_contract_witness :
    ((crawlCalls initSink [[safeRound], [safeRound]]).written.map
      (·.name)).Nodup :=
  dedup_contract.1 [[safeRound], [safeRound]] (by decide)

end Webcrawl
